import Mathlib

/-
Verification of the Document Analyzer core (shared/utils/ProsemirrorHelper.ts).

The embedding models the prosemirror tree collaborators (Node, Fragment,
Mark, Schema) as inductive values, and translates each helper of the
ProsemirrorHelper class into a Lean function over that model.  The two
repository library functions that the helper file imports but whose code is
not part of the analysed sources, headingToSlug and textBetween, are
modelled from the specification and marked as such in their doc comments.
JavaScript specifics are made explicit: attribute maps are association
lists with object-update semantics, absent attributes are Option.none,
string trimming is whitespace removal at both ends, and numbers that the
code only ever uses as non-negative offsets are Nat.
-/

/-- Attribute values stored in node and mark attribute maps. -/
inductive AttrVal where
  | str (s : String)
  | num (n : Int)
  | boolean (b : Bool)
  | null
deriving DecidableEq

/-- A mark attached to a text-bearing node, with a type name and attributes. -/
structure Mark where
  typeName : String
  attrs : List (String × AttrVal)
deriving DecidableEq

/-- A prosemirror node: either a text leaf carrying marks, or an interior
node with a type name, attributes, block and leaf flags, marks and ordered
children. -/
inductive PNode where
  | text (s : String) (marks : List Mark)
  | node (typeName : String) (attrs : List (String × AttrVal)) (isBlock : Bool)
      (isLeaf : Bool) (marks : List Mark) (children : List PNode)

mutual
def pnodeDecEq : (a b : PNode) → Decidable (a = b)
  | .text s1 m1, .text s2 m2 =>
    if h : s1 = s2 ∧ m1 = m2 then isTrue (by rw [h.1, h.2])
    else isFalse (by intro he; cases he; exact h ⟨rfl, rfl⟩)
  | .text _ _, .node _ _ _ _ _ _ => isFalse nofun
  | .node _ _ _ _ _ _, .text _ _ => isFalse nofun
  | .node t1 a1 b1 l1 m1 c1, .node t2 a2 b2 l2 m2 c2 =>
    match pnodeListDecEq c1 c2 with
    | isTrue hc =>
      if h : t1 = t2 ∧ a1 = a2 ∧ b1 = b2 ∧ l1 = l2 ∧ m1 = m2 then
        isTrue (by rw [h.1, h.2.1, h.2.2.1, h.2.2.2.1, h.2.2.2.2, hc])
      else isFalse (by intro he; cases he; exact h ⟨rfl, rfl, rfl, rfl, rfl⟩)
    | isFalse hc => isFalse (by intro he; cases he; exact hc rfl)
def pnodeListDecEq : (a b : List PNode) → Decidable (a = b)
  | [], [] => isTrue rfl
  | [], _ :: _ => isFalse nofun
  | _ :: _, [] => isFalse nofun
  | x :: xs, y :: ys =>
    match pnodeDecEq x y, pnodeListDecEq xs ys with
    | isTrue h1, isTrue h2 => isTrue (by rw [h1, h2])
    | isFalse h1, _ => isFalse (by intro he; injection he; contradiction)
    | _, isFalse h2 => isFalse (by intro he; injection he; contradiction)
end

instance : DecidableEq PNode := pnodeDecEq

/-- Type name of a node; prosemirror text nodes have type name text. -/
def typeNameOf : PNode → String
  | .text _ _ => "text"
  | .node ty _ _ _ _ _ => ty

/-- Ordered children of a node (the fragment content); empty for text nodes. -/
def childrenOf : PNode → List PNode
  | .text _ _ => []
  | .node _ _ _ _ _ cs => cs

/-- Marks attached to a node. -/
def marksOf : PNode → List Mark
  | .text _ m => m
  | .node _ _ _ _ m _ => m

/-- Attribute map of a node; text nodes have no attributes. -/
def attrsOf : PNode → List (String × AttrVal)
  | .text _ _ => []
  | .node _ a _ _ _ _ => a

/-- Whether the node is a text node. -/
def isTextNode : PNode → Bool
  | .text _ _ => true
  | .node _ _ _ _ _ _ => false

/-- Whether the node is block-level; prosemirror text nodes are inline. -/
def isBlockNode : PNode → Bool
  | .text _ _ => false
  | .node _ _ b _ _ _ => b

/-- Whether the node is a leaf by type; prosemirror text nodes are leaves. -/
def isLeafNode : PNode → Bool
  | .text _ _ => true
  | .node _ _ _ lf _ _ => lf

/-- Number of direct children, prosemirror childCount. -/
def childCount (n : PNode) : Nat := (childrenOf n).length

/-- JavaScript object field lookup on an attribute map: first matching key,
none when the key is absent (the undefined value). -/
def objGet : List (String × AttrVal) → String → Option AttrVal
  | [], _ => none
  | p :: rest, k => if p.1 = k then some p.2 else objGet rest k

/-- Whether an attribute map has a key. -/
def objHas : List (String × AttrVal) → String → Bool
  | [], _ => false
  | p :: rest, k => if p.1 = k then true else objHas rest k

/-- JavaScript object field assignment: replace the value in place when the
key exists, else append the new binding.  Models building the object
spread-then-assign result by its key/value content. -/
def objSet (o : List (String × AttrVal)) (k : String) (v : AttrVal) :
    List (String × AttrVal) :=
  if objHas o k then o.map (fun p => if p.1 = k then (k, v) else p)
  else o ++ [(k, v)]

mutual
/-- Prosemirror nodeSize: text nodes occupy one unit per character, leaf
nodes one unit, interior nodes their content size plus two for the
boundary tokens. -/
def nodeSize : PNode → Nat
  | .text s _ => s.length
  | .node _ _ _ lf _ cs => if lf then 1 else 2 + sizeList cs
/-- Prosemirror Fragment.size: sum of the node sizes of the children. -/
def sizeList : List PNode → Nat
  | [] => 0
  | c :: cs => nodeSize c + sizeList cs
end

mutual
/-- Prosemirror textContent: concatenation of all text in the subtree with
no separators. -/
def textContent : PNode → String
  | .text s _ => s
  | .node _ _ _ _ _ cs => textContentList cs
/-- Concatenated textContent of a list of nodes. -/
def textContentList : List PNode → String
  | [] => ""
  | c :: cs => textContent c ++ textContentList cs
end

/-- Whitespace characters recognised by string trimming. -/
def isWS (c : Char) : Bool := c = ' ' || c = '\t' || c = '\n' || c = '\r'

/-- JavaScript String.prototype.trim: drop leading and trailing whitespace. -/
def jsTrim (s : String) : String :=
  ⟨((s.data.dropWhile isWS).reverse.dropWhile isWS).reverse⟩

/-- Schema as consumed by this core: for each node type name, the optional
custom plain-text serializer declared in its node spec (the map that
toPlainText assembles from schema.nodes and spec.toPlainText). -/
abbrev Schema := String → Option (PNode → String)

/-- Block separator emitted between the text runs of two adjacent
block-level siblings. -/
def sepAfter (c : PNode) (rest : List PNode) : String :=
  match rest with
  | [] => ""
  | c2 :: _ => if isBlockNode c && isBlockNode c2 then "\n" else ""

mutual
/-- Modelled from the spec: the textual contribution of one node during the
textBetween walk (the shared editor library textBetween is not part of the
analysed sources).  If the node type has a registered serializer it is
invoked for the whole node, otherwise a text leaf emits its literal text
and an interior node emits the contribution of its children. -/
def plainTextNode (sch : Schema) : PNode → String
  | .text s m =>
    match sch "text" with
    | some f => f (.text s m)
    | none => s
  | .node ty a b lf m cs =>
    match sch ty with
    | some f => f (.node ty a b lf m cs)
    | none => plainTextList sch cs
/-- Modelled from the spec: concatenated contributions of a node list with
a single block-separator character between adjacent block-level siblings. -/
def plainTextList (sch : Schema) : List PNode → String
  | [] => ""
  | c :: rest => plainTextNode sch c ++ sepAfter c rest ++ plainTextList sch rest
end

/-- ProsemirrorHelper.toPlainText: the textBetween walk over the full node
range of the root, so over the descendants of the root. -/
def toPlainText (sch : Schema) (root : PNode) : String :=
  plainTextList sch (childrenOf root)

/-- ProsemirrorHelper.getEmptyDocument as a node value: a document with a
single empty paragraph. -/
def getEmptyDocument : PNode :=
  .node "doc" [] true false [] [.node "paragraph" [] true false [] []]

/-- ProsemirrorHelper.isEmpty: true when the document is absent or its
textContent trims to the empty string. -/
def isEmpty : Option PNode → Bool
  | none => true
  | some d => decide (jsTrim (textContent d) = "")

mutual
/-- Prosemirror Fragment.cut inner loop: walk the children keeping track of
the position, stop once the position reaches the upper bound, skip children
that end at or before the lower bound, keep the rest, recursively cutting a
child only when the bounds fall strictly inside it.  The source loop never
runs past the child array for in-range bounds, so the empty-list case
returns what has been accumulated. -/
def cutGo (f t : Nat) : List PNode → Nat → List PNode
  | [], _ => []
  | c :: rest, pos =>
    if t ≤ pos then []
    else
      (if f < pos + nodeSize c then
        [if pos < f ∨ t < pos + nodeSize c then cutChild c (f - pos) (t - pos) else c]
       else []) ++ cutGo f t rest (pos + nodeSize c)
/-- Prosemirror Node.cut applied to a partially covered child with bounds
relative to the child: a text node is cut on its characters, an interior
node on its content with the bounds shifted past its opening token and
clamped; negative relative bounds are clamped to zero, as truncated Nat
subtraction does. -/
def cutChild : PNode → Nat → Nat → PNode
  | .text s m, rf, rt =>
    if rf = 0 ∧ min s.length rt = s.length then .text s m
    else .text ⟨(s.data.take (min s.length rt)).drop rf⟩ m
  | .node ty a b lf m cs, rf, rt =>
    if rf - 1 = 0 ∧ min (sizeList cs) (rt - 1) = sizeList cs then .node ty a b lf m cs
    else
      .node ty a b lf m
        (if rf - 1 < min (sizeList cs) (rt - 1) then
          cutGo (rf - 1) (min (sizeList cs) (rt - 1)) cs 0
         else [])
end

/-- Prosemirror Fragment.cut: identity when the bounds cover the whole
content, the empty fragment when the upper bound does not exceed the lower
bound, otherwise the walk. -/
def cutFragment (cs : List PNode) (f t : Nat) : List PNode :=
  if f = 0 ∧ t = sizeList cs then cs
  else if f < t then cutGo f t cs 0 else []

/-- Prosemirror Node.cut: identity when the bounds cover the whole content,
otherwise a copy of the node with its content cut. -/
def cutNode (n : PNode) (f t : Nat) : PNode :=
  match n with
  | .text s m =>
    if f = 0 ∧ t = s.length then .text s m else .text ⟨(s.data.take t).drop f⟩ m
  | .node ty a b lf m cs =>
    if f = 0 ∧ t = sizeList cs then .node ty a b lf m cs
    else .node ty a b lf m (cutFragment cs f t)

/-- The per-child emptiness test used by the trim scans: the plain text of
the child trims to the empty string. -/
def isEmptyChild (sch : Schema) (c : PNode) : Bool :=
  decide (jsTrim (toPlainText sch c) = "")

/-- Forward trim scan: total size of the maximal prefix of empty children,
the accumulated start offset of the first while loop. -/
def scanFront (sch : Schema) : List PNode → Nat
  | [] => 0
  | c :: rest => if isEmptyChild sch c then nodeSize c + scanFront sch rest else 0

/-- Backward trim scan: total size of the maximal suffix of empty children
together with the flag telling whether the whole list was consumed, the
state of the second while loop. -/
def scanBack (sch : Schema) : List PNode → Nat × Bool
  | [] => (0, true)
  | c :: rest =>
    let r := scanBack sch rest
    if r.2 && isEmptyChild sch c then (nodeSize c + r.1, true) else (r.1, false)

/-- ProsemirrorHelper.trim: return documents with at most one child
unchanged, otherwise cut the document between the offset accumulated by the
forward scan and the content size decremented by the backward scan. -/
def trim (sch : Schema) (doc : PNode) : PNode :=
  if childCount doc ≤ 1 then doc
  else
    cutNode doc (scanFront sch (childrenOf doc))
      ((nodeSize doc - 2) - (scanBack sch (childrenOf doc)).1)

mutual
/-- Prosemirror descendants traversal order for one node: the node itself
is not listed, its children are listed each before their own descendants. -/
def descendantsOf : PNode → List PNode
  | .text _ _ => []
  | .node _ _ _ _ _ cs => descendantsList cs
/-- Descendants traversal of a node list: each node followed by its
descendants, in order. -/
def descendantsList : List PNode → List PNode
  | [] => []
  | n :: rest => n :: (descendantsOf n ++ descendantsList rest)
end

/-- The comment entries contributed by one visited node: one entry per
comment mark, the mark attributes spread into a fresh object and the text
field then assigned the node textContent. -/
def commentEntries (n : PNode) : List (List (String × AttrVal)) :=
  (marksOf n).filterMap
    (fun m =>
      if m.typeName = "comment" then
        some (objSet m.attrs "text" (AttrVal.str (textContent n)))
      else none)

/-- ProsemirrorHelper.getComments: every comment mark occurrence across the
descendants of the document, in traversal order. -/
def getComments (doc : PNode) : List (List (String × AttrVal)) :=
  (descendantsOf doc).flatMap commentEntries

/-- A task as emitted by getTasks; completed is the checked attribute taken
verbatim, so an absent attribute yields none. -/
structure TaskEntry where
  text : String
  completed : Option AttrVal
deriving DecidableEq

/-- Text of a checklist item: concatenated textContent of its direct
paragraph children, in order. -/
def itemText (item : PNode) : String :=
  (childrenOf item).foldl
    (fun acc c => if typeNameOf c == "paragraph" then acc ++ textContent c else acc) ""

/-- The task emitted for one checklist item. -/
def taskOfItem (item : PNode) : TaskEntry :=
  ⟨itemText item, objGet (attrsOf item) "checked"⟩

mutual
/-- TaskEntry extraction at one visited node: non-block nodes are pruned, a
checkbox list contributes one task per child item, and block nodes are
descended into. -/
def tasksNode : PNode → List TaskEntry
  | .text _ _ => []
  | .node ty _ b _ _ cs =>
    if b then
      (if ty = "checkbox_list" then cs.map taskOfItem else []) ++ tasksList cs
    else []
/-- TaskEntry extraction over a node list in traversal order. -/
def tasksList : List PNode → List TaskEntry
  | [] => []
  | n :: rest => tasksNode n ++ tasksList rest
end

/-- ProsemirrorHelper.getTasks: the pruned descendants traversal collecting
checklist items. -/
def getTasks (doc : PNode) : List TaskEntry := tasksList (childrenOf doc)

mutual
/-- The checklist item nodes collected by the getTasks traversal at one
visited node. -/
def checklistItemsNode : PNode → List PNode
  | .text _ _ => []
  | .node ty _ b _ _ cs =>
    if b then (if ty = "checkbox_list" then cs else []) ++ checklistItemsList cs
    else []
/-- The checklist item nodes collected over a node list. -/
def checklistItemsList : List PNode → List PNode
  | [] => []
  | n :: rest => checklistItemsNode n ++ checklistItemsList rest
end

/-- Summary returned by getTasksSummary. -/
structure TasksSummary where
  completed : Nat
  total : Nat
deriving DecidableEq

/-- JavaScript truthiness of an attribute value or of the undefined value,
the predicate of the filter inside getTasksSummary. -/
def truthy : Option AttrVal → Bool
  | none => false
  | some (.str s) => !(s == "")
  | some (.num n) => !(n == 0)
  | some (.boolean b) => b
  | some .null => false

/-- ProsemirrorHelper.getTasksSummary: count of truthy-completed tasks and
total count of tasks. -/
def getTasksSummary (doc : PNode) : TasksSummary :=
  ⟨((getTasks doc).filter (fun t => truthy t.completed)).length,
    (getTasks doc).length⟩

/-- A heading as emitted by getHeadings; the level attribute is taken
verbatim from the attribute map. -/
structure Heading where
  title : String
  level : Option AttrVal
  id : String
deriving DecidableEq

/-- Decimal digit character for a value below ten. -/
def digitChar (d : Nat) : Char := Char.ofNat (48 + d)

/-- Fuel-indexed decimal digit list of a natural number, most significant
digit first; the fuel always suffices at the call sites. -/
def natCharsAux : Nat → Nat → List Char
  | 0, _ => []
  | fuel + 1, n =>
    if n < 10 then [digitChar n] else natCharsAux fuel (n / 10) ++ [digitChar (n % 10)]

/-- Decimal string of a natural number. -/
def natStr (n : Nat) : String := ⟨natCharsAux (n + 1) n⟩

/-- Numeric value of a digit character. -/
def charDigitVal (c : Char) : Nat := c.toNat - 48

/-- Numeric value of a digit list, most significant digit first. -/
def digitsVal (l : List Char) : Nat := l.foldl (fun a c => a * 10 + charDigitVal c) 0

/-- Modelled from the spec: the slug normalisation of one character used by
the external slugify collaborator of headingToSlug; spaces become hyphens,
letters are lowercased, digits kept, other punctuation stripped. -/
def slugifyChar (c : Char) : List Char :=
  if c = ' ' then ['-']
  else if ('a' ≤ c ∧ c ≤ 'z') ∨ ('0' ≤ c ∧ c ≤ '9') then [c]
  else if 'A' ≤ c ∧ c ≤ 'Z' then [c.toLower]
  else []

/-- Modelled from the spec: the deterministic slug of a string. -/
def slugify (s : String) : String := ⟨s.data.flatMap slugifyChar⟩

/-- A slug with its disambiguation suffix: the base slug itself for index
zero, otherwise the base slug with a hyphen and the decimal index. -/
def mkId (s : String) (k : Nat) : String :=
  if k = 0 then s else s ++ "-" ++ natStr k

/-- Modelled from the spec: headingToSlug (shared editor library, not part
of the analysed sources) computes the slug of the heading text, and for a
positive disambiguation index appends an incrementing numeric suffix; the
index defaults to zero in the source. -/
def headingToSlug (node : PNode) (index : Nat) : String :=
  mkId (slugify (textContent node)) index

/-- The getHeadings loop over the direct children, carrying the
previouslySeen occurrence counts; a count of zero models an id that is not
yet a key of the object. -/
def getHeadingsAux : List PNode → (String → Nat) → List Heading
  | [], _ => []
  | n :: rest, seen =>
    if typeNameOf n = "heading" then
      let slug0 := headingToSlug n 0
      let nm := if 0 < seen slug0 then headingToSlug n (seen slug0) else slug0
      ⟨textContent n, objGet (attrsOf n) "level", nm⟩ ::
        getHeadingsAux rest (fun s => if s = slug0 then seen slug0 + 1 else seen s)
    else getHeadingsAux rest seen

/-- ProsemirrorHelper.getHeadings: headings among the direct children of
the document with slug-collision disambiguation. -/
def getHeadings (doc : PNode) : List Heading :=
  getHeadingsAux (childrenOf doc) (fun _ => 0)

/-- A schema with no custom plain-text serializers. -/
def emptySchema : Schema := fun _ => none

/-- A level-one heading node with the given text. -/
def headingNode (t : String) : PNode :=
  .node "heading" [("level", .num 1)] true false [] [.text t []]

/-- A document node with the given children. -/
def docOf (cs : List PNode) : PNode := .node "doc" [] true false [] cs

/-- A paragraph with one text child. -/
def paragraphNode (t : String) : PNode := .node "paragraph" [] true false [] [.text t []]

/-- An empty paragraph. -/
def emptyParagraph : PNode := .node "paragraph" [] true false [] []

/-- Three identical Intro headings, the spec scenario for id disambiguation. -/
def docIntro3 : PNode := docOf [headingNode "Intro", headingNode "Intro", headingNode "Intro"]

/-- Headings whose first literal text slugifies to the disambiguated id of
the later duplicates. -/
def docSlugClash : PNode := docOf [headingNode "Intro 1", headingNode "Intro", headingNode "Intro"]

/-- A schema in which the mention type declares a plain-text serializer. -/
def mentionSchema : Schema :=
  fun ty => if ty = "mention" then some (fun _ => "MENTION") else none

/-- A document whose only content is a childless mention node, so its
textContent is empty while its serializer-aware plain text is not. -/
def mentionDoc : PNode :=
  docOf [.node "paragraph" [] true false [] [.node "mention" [] false true [] []]]

/-- A document with one text node carrying two comment marks. -/
def commentDoc : PNode :=
  docOf [.node "paragraph" [] true false []
    [.text "hello"
      [⟨"comment", [("id", .str "a"), ("userId", .str "u1")]⟩,
       ⟨"comment", [("id", .str "b"), ("userId", .str "u2")]⟩]]]

/-- A document with one comment mark that lacks id and userId but carries
its own text attribute. -/
def sneakyCommentDoc : PNode :=
  docOf [.node "paragraph" [] true false []
    [.text "real" [⟨"comment", [("text", .str "fake")]⟩]]]

/-- A checklist with one checked item and one item without a checked
attribute. -/
def checkboxDoc : PNode :=
  docOf [.node "checkbox_list" [] true false []
    [.node "checkbox_item" [("checked", .boolean true)] true false [] [paragraphNode "a"],
     .node "checkbox_item" [] true false [] [paragraphNode "b"]]]

/-- Empty paragraph, Hello paragraph, empty paragraph. -/
def helloDoc : PNode := docOf [emptyParagraph, paragraphNode "Hello", emptyParagraph]

/-- A document with a single child. -/
def oneChildDoc : PNode := docOf [paragraphNode "Hello"]

/-- A document whose two children are both empty paragraphs. -/
def allEmptyDoc : PNode := docOf [emptyParagraph, emptyParagraph]


/-
Helper lemmas about decimal digit strings and disambiguated slugs.
-/

theorem digitChar_ne_dash (d : Nat) (hd : d < 10) : digitChar d ≠ '-' := by
  interval_cases d <;> decide

theorem charDigitVal_digitChar (d : Nat) (hd : d < 10) : charDigitVal (digitChar d) = d := by
  interval_cases d <;> decide

theorem dash_not_mem_natCharsAux : ∀ fuel n, '-' ∉ natCharsAux fuel n := by
  intro fuel
  induction fuel with
  | zero => intro n; simp [natCharsAux]
  | succ fuel ih =>
    intro n
    rw [natCharsAux]
    split
    · next h =>
      simp only [List.mem_singleton]
      intro he
      exact digitChar_ne_dash n h he.symm
    · next h =>
      simp only [List.mem_append, List.mem_singleton]
      rintro (hm | hm)
      · exact ih (n / 10) hm
      · exact digitChar_ne_dash (n % 10) (Nat.mod_lt n (by omega)) hm.symm

theorem digitsVal_append_singleton (l : List Char) (c : Char) :
    digitsVal (l ++ [c]) = digitsVal l * 10 + charDigitVal c := by
  simp [digitsVal, List.foldl_append]

theorem digitsVal_natCharsAux : ∀ fuel n, n < fuel → digitsVal (natCharsAux fuel n) = n := by
  intro fuel
  induction fuel with
  | zero => intro n h; exact absurd h (Nat.not_lt_zero n)
  | succ fuel ih =>
    intro n hn
    rw [natCharsAux]
    split
    · next h =>
      simp [digitsVal, charDigitVal_digitChar n h]
    · next h =>
      have hdiv : n / 10 < fuel := by
        have := Nat.div_lt_self (by omega : 0 < n) (by omega : 1 < 10)
        omega
      rw [digitsVal_append_singleton, ih (n / 10) hdiv,
        charDigitVal_digitChar (n % 10) (Nat.mod_lt n (by omega))]
      omega

theorem natCharsAux_ne_nil : ∀ fuel n, n < fuel → natCharsAux fuel n ≠ [] := by
  intro fuel
  induction fuel with
  | zero => intro n h; exact absurd h (Nat.not_lt_zero n)
  | succ fuel _ =>
    intro n _
    rw [natCharsAux]
    split <;> simp

theorem natStr_inj (i j : Nat) (h : natStr i = natStr j) : i = j := by
  have hd : natCharsAux (i + 1) i = natCharsAux (j + 1) j := congrArg String.data h
  have h1 := digitsVal_natCharsAux (i + 1) i (by omega)
  have h2 := digitsVal_natCharsAux (j + 1) j (by omega)
  rw [← h1, ← h2, hd]

theorem append_split_on_char (c : Char) :
    ∀ (l1 l2 d1 d2 : List Char), c ∉ d1 → c ∉ d2 →
      l1 ++ c :: d1 = l2 ++ c :: d2 → l1 = l2 ∧ d1 = d2 := by
  intro l1
  induction l1 with
  | nil =>
    intro l2 d1 d2 h1 h2 he
    cases l2 with
    | nil =>
      simp only [List.nil_append] at he
      exact ⟨rfl, (List.cons.inj he).2⟩
    | cons b l2' =>
      simp only [List.nil_append, List.cons_append] at he
      obtain ⟨hcb, hrest⟩ := List.cons.inj he
      exfalso
      apply h1
      rw [hrest]
      exact List.mem_append_right _ (List.mem_cons_self _ _)
  | cons a l1' ih =>
    intro l2 d1 d2 h1 h2 he
    cases l2 with
    | nil =>
      simp only [List.cons_append, List.nil_append] at he
      obtain ⟨hac, hrest⟩ := List.cons.inj he
      exfalso
      apply h2
      rw [← hrest]
      exact List.mem_append_right _ (List.mem_cons_self _ _)
    | cons b l2' =>
      simp only [List.cons_append] at he
      obtain ⟨hab, hrest⟩ := List.cons.inj he
      obtain ⟨hl, hd⟩ := ih l2' d1 d2 h1 h2 hrest
      exact ⟨by rw [hab, hl], hd⟩

theorem mkId_zero (s : String) : mkId s 0 = s := by
  rw [mkId, if_pos rfl]

theorem string_data_mkId_pos (s : String) (k : Nat) (hk : 1 ≤ k) :
    (mkId s k).data = s.data ++ '-' :: (natStr k).data := by
  rw [mkId, if_neg (by omega)]
  rw [String.data_append, String.data_append]
  rw [show ("-" : String).data = ['-'] from rfl]
  simp

theorem mkId_inj (s t : String) (i j : Nat)
    (h1 : 1 ≤ i → t ≠ mkId s i) (h2 : 1 ≤ j → s ≠ mkId t j)
    (he : mkId s i = mkId t j) : s = t ∧ i = j := by
  match i, j with
  | 0, 0 =>
    rw [mkId_zero, mkId_zero] at he
    exact ⟨he, rfl⟩
  | 0, j + 1 =>
    rw [mkId_zero] at he
    exact absurd he (h2 (by omega))
  | i + 1, 0 =>
    rw [mkId_zero] at he
    exact absurd he.symm (h1 (by omega))
  | i + 1, j + 1 =>
    have hd : s.data ++ '-' :: (natStr (i + 1)).data =
        t.data ++ '-' :: (natStr (j + 1)).data := by
      rw [← string_data_mkId_pos s (i + 1) (by omega),
        ← string_data_mkId_pos t (j + 1) (by omega), he]
    obtain ⟨hst, hnat⟩ :=
      append_split_on_char '-' s.data t.data (natStr (i + 1)).data (natStr (j + 1)).data
        (dash_not_mem_natCharsAux (i + 2) (i + 1))
        (dash_not_mem_natCharsAux (j + 2) (j + 1)) hd
    refine ⟨String.ext hst, ?_⟩
    have hn : natStr (i + 1) = natStr (j + 1) := String.ext hnat
    have := natStr_inj _ _ hn
    omega

theorem length_mkId_pos (s : String) (k : Nat) (hk : 1 ≤ k) :
    s.length + 1 ≤ (mkId s k).length := by
  rw [mkId, if_neg (by omega), String.length_append, String.length_append]
  have hdash : ("-" : String).length = 1 := rfl
  omega

theorem ne_mkId_of_length_le (s t : String) (k : Nat) (hk : 1 ≤ k)
    (hl : s.length ≤ t.length) : s ≠ mkId t k := by
  intro he
  have := length_mkId_pos t k hk
  rw [← he] at this
  omega

theorem headingToSlug_eq_mkId (n : PNode) (k : Nat) :
    headingToSlug n k = mkId (headingToSlug n 0) k := by
  simp [headingToSlug, mkId]

theorem emitted_id_eq (n : PNode) (seen : String → Nat) :
    (if 0 < seen (headingToSlug n 0) then headingToSlug n (seen (headingToSlug n 0))
      else headingToSlug n 0) = mkId (headingToSlug n 0) (seen (headingToSlug n 0)) := by
  by_cases hz : 0 < seen (headingToSlug n 0)
  · rw [if_pos hz, headingToSlug_eq_mkId]
  · rw [if_neg hz]
    have hz0 : seen (headingToSlug n 0) = 0 := by omega
    rw [hz0, mkId_zero]

/-
Lemmas characterising the getHeadings loop.
-/

theorem getHeadingsAux_id_mem :
    ∀ (nodes : List PNode) (seen : String → Nat) (x : String),
      x ∈ (getHeadingsAux nodes seen).map Heading.id →
      ∃ n, n ∈ nodes ∧ typeNameOf n = "heading" ∧
        ∃ k, seen (headingToSlug n 0) ≤ k ∧ x = mkId (headingToSlug n 0) k := by
  intro nodes
  induction nodes with
  | nil => intro seen x hx; simp [getHeadingsAux] at hx
  | cons n rest ih =>
    intro seen x hx
    by_cases hn : typeNameOf n = "heading"
    · rw [getHeadingsAux, if_pos hn] at hx
      simp only [List.map_cons, List.mem_cons] at hx
      rcases hx with hx | hx
      · refine ⟨n, List.mem_cons_self _ _, hn, seen (headingToSlug n 0), le_rfl, ?_⟩
        rw [hx]
        exact emitted_id_eq n seen
      · obtain ⟨n', hmem, hh, k, hk, hx⟩ := ih _ x hx
        refine ⟨n', List.mem_cons_of_mem _ hmem, hh, k, ?_, hx⟩
        refine le_trans ?_ hk
        by_cases hs : headingToSlug n' 0 = headingToSlug n 0 <;> simp [hs]
    · rw [getHeadingsAux, if_neg hn] at hx
      obtain ⟨n', hmem, hh, k, hk, hx⟩ := ih seen x hx
      exact ⟨n', List.mem_cons_of_mem _ hmem, hh, k, hk, hx⟩

theorem getHeadingsAux_nodup :
    ∀ (nodes : List PNode) (seen : String → Nat),
      (∀ n m, n ∈ nodes → m ∈ nodes → typeNameOf n = "heading" → typeNameOf m = "heading" →
        ∀ k, 1 ≤ k → headingToSlug n 0 ≠ headingToSlug m k) →
      ((getHeadingsAux nodes seen).map Heading.id).Nodup := by
  intro nodes
  induction nodes with
  | nil => intro seen _; simp [getHeadingsAux]
  | cons n rest ih =>
    intro seen H
    have Hrest : ∀ a b, a ∈ rest → b ∈ rest → typeNameOf a = "heading" →
        typeNameOf b = "heading" → ∀ k, 1 ≤ k → headingToSlug a 0 ≠ headingToSlug b k :=
      fun a b ha hb => H a b (List.mem_cons_of_mem _ ha) (List.mem_cons_of_mem _ hb)
    by_cases hn : typeNameOf n = "heading"
    · rw [getHeadingsAux, if_pos hn]
      simp only [List.map_cons, List.nodup_cons]
      refine ⟨?_, ih _ Hrest⟩
      intro hmem
      obtain ⟨n', hmem', hh', k, hk, hx⟩ := getHeadingsAux_id_mem _ _ _ hmem
      rw [emitted_id_eq n seen] at hx
      obtain ⟨hseq, hkeq⟩ := mkId_inj (headingToSlug n 0) (headingToSlug n' 0)
        (seen (headingToSlug n 0)) k
        (fun hp => by
          have hne := H n' n (List.mem_cons_of_mem _ hmem') (List.mem_cons_self _ _) hh' hn
            (seen (headingToSlug n 0)) hp
          rw [headingToSlug_eq_mkId n] at hne
          exact hne)
        (fun hp => by
          have hne := H n n' (List.mem_cons_self _ _) (List.mem_cons_of_mem _ hmem') hn hh' k hp
          rw [headingToSlug_eq_mkId n'] at hne
          exact hne)
        hx
      have hcond : headingToSlug n' 0 = headingToSlug n 0 := hseq.symm
      rw [if_pos hcond] at hk
      omega
    · rw [getHeadingsAux, if_neg hn]
      exact ih seen Hrest

/-- C1 (amended): the ids emitted by getHeadings are pairwise distinct,
even when several headings have identical title and level, for every
document in which no heading text slugifies to a disambiguated slug of
another heading. -/
theorem C1_heading_ids_nodup (doc : PNode)
    (H : ∀ n m, n ∈ childrenOf doc → m ∈ childrenOf doc → typeNameOf n = "heading" →
      typeNameOf m = "heading" → ∀ k, 1 ≤ k → headingToSlug n 0 ≠ headingToSlug m k) :
    ((getHeadings doc).map Heading.id).Nodup :=
  getHeadingsAux_nodup (childrenOf doc) (fun _ => 0) H

/-- Witness for C1: three identical Intro headings satisfy the hypothesis
and get pairwise distinct ids. -/
theorem C1_heading_ids_nodup_witness :
    ((getHeadings docIntro3).map Heading.id).Nodup :=
  C1_heading_ids_nodup docIntro3 (by
    intro n m hn hm _ _ k hk
    have hn' : n = headingNode "Intro" := by
      simpa [docIntro3, docOf, childrenOf] using hn
    have hm' : m = headingNode "Intro" := by
      simpa [docIntro3, docOf, childrenOf] using hm
    subst hn'; subst hm'
    rw [headingToSlug_eq_mkId]
    exact ne_mkId_of_length_le _ _ k hk le_rfl)

/-- Counterexample to C1 as stated: in the document whose headings are
Intro 1, Intro, Intro the literal text of the first heading slugifies to
the disambiguated id of the third, so the ids are not pairwise distinct. -/
theorem C1_counterexample :
    ¬ ((getHeadings docSlugClash).map Heading.id).Nodup := by decide

/-- C4: for a document whose children are three headings with text Intro,
the assigned ids are intro, intro-1 and intro-2, the n-th duplicate being
disambiguated with parameter n-1. -/
theorem C4_intro_disambiguation :
    getHeadings docIntro3 =
      [⟨"Intro", some (.num 1), "intro"⟩, ⟨"Intro", some (.num 1), "intro-1"⟩,
       ⟨"Intro", some (.num 1), "intro-2"⟩] := by decide

/-- C6: a document with one text node carrying two comment marks with ids a
and b yields exactly two entries, one per id, both with the text content of
the carrying node as text field. -/
theorem C6_comment_multiplicity :
    (getComments commentDoc).length = 2 ∧
    (getComments commentDoc).map (fun o => objGet o "id") =
      [some (.str "a"), some (.str "b")] ∧
    (getComments commentDoc).map (fun o => objGet o "text") =
      [some (.str "hello"), some (.str "hello")] := by decide

/-- C7: a document with at most one top-level child is returned unchanged
by trim. -/
theorem C7_trim_small (sch : Schema) (doc : PNode) (h : childCount doc ≤ 1) :
    trim sch doc = doc := by
  rw [trim, if_pos h]

/-- Witness for C7 at a one-child document. -/
theorem C7_trim_small_witness : trim emptySchema oneChildDoc = oneChildDoc :=
  C7_trim_small emptySchema oneChildDoc (by decide)

/-- Counterexample to C2 as stated: a document whose only content is a
childless mention node with a custom serializer is reported empty by
isEmpty while its serializer-aware plain text does not trim to the empty
string. -/
theorem C2_counterexample :
    ¬ (isEmpty (some mentionDoc) =
        decide (jsTrim (toPlainText mentionSchema mentionDoc) = "")) := by
  decide

/-
Lemmas about JavaScript object lookup and assignment.
-/

theorem objGet_map_replace (o : List (String × AttrVal)) (k : String) (v : AttrVal)
    (h : objHas o k = true) :
    objGet (o.map (fun p => if p.1 = k then (k, v) else p)) k = some v := by
  induction o with
  | nil => simp [objHas] at h
  | cons p rest ih =>
    by_cases hp : p.1 = k
    · simp [objGet, hp]
    · rw [objHas, if_neg hp] at h
      simp [objGet, hp, ih h]

theorem objGet_append_new (o : List (String × AttrVal)) (k : String) (v : AttrVal)
    (h : objHas o k = false) :
    objGet (o ++ [(k, v)]) k = some v := by
  induction o with
  | nil => simp [objGet]
  | cons p rest ih =>
    by_cases hp : p.1 = k
    · rw [objHas, if_pos hp] at h
      cases h
    · rw [objHas, if_neg hp] at h
      simp [objGet, hp, ih h]

theorem objGet_objSet_self (o : List (String × AttrVal)) (k : String) (v : AttrVal) :
    objGet (objSet o k v) k = some v := by
  rw [objSet]
  split
  · next h => exact objGet_map_replace o k v h
  · next h => exact objGet_append_new o k v (by simpa using h)

theorem objGet_map_replace_other (o : List (String × AttrVal)) (k : String) (v : AttrVal)
    (k' : String) (hne : k' ≠ k) :
    objGet (o.map (fun p => if p.1 = k then (k, v) else p)) k' = objGet o k' := by
  induction o with
  | nil => simp
  | cons p rest ih =>
    by_cases hp : p.1 = k
    · have hpk : ¬ p.1 = k' := by rw [hp]; exact fun h => hne h.symm
      have hkk : ¬ k = k' := fun h => hne h.symm
      simp [objGet, hp, hpk, hkk, ih]
    · simp only [List.map_cons, if_neg hp]
      rw [objGet, objGet, ih]

theorem objGet_append_other (o : List (String × AttrVal)) (k : String) (v : AttrVal)
    (k' : String) (hne : k' ≠ k) :
    objGet (o ++ [(k, v)]) k' = objGet o k' := by
  induction o with
  | nil => simp [objGet, Ne.symm hne]
  | cons p rest ih =>
    simp only [List.cons_append]
    rw [objGet, objGet, ih]

theorem objGet_objSet_other (o : List (String × AttrVal)) (k : String) (v : AttrVal)
    (k' : String) (hne : k' ≠ k) :
    objGet (objSet o k v) k' = objGet o k' := by
  rw [objSet]
  split
  · exact objGet_map_replace_other o k v k' hne
  · exact objGet_append_other o k v k' hne

theorem objGet_eq_none_of_not_has (o : List (String × AttrVal)) (k : String)
    (h : objHas o k = false) : objGet o k = none := by
  induction o with
  | nil => rfl
  | cons p rest ih =>
    by_cases hp : p.1 = k
    · rw [objHas, if_pos hp] at h
      cases h
    · rw [objHas, if_neg hp] at h
      rw [objGet, if_neg hp]
      exact ih h

/-
A size-based induction principle for node lists, standing in for the nested
structural induction over the tree. -/

theorem pnode_list_sizeOf_pos (l : List PNode) : 1 ≤ sizeOf l := by
  cases l with
  | nil => simp
  | cons n rest => simp; omega

theorem pnode_list_ind (P : List PNode → Prop) (h0 : P [])
    (h1 : ∀ n rest, P (childrenOf n) → P rest → P (n :: rest)) : ∀ l, P l := by
  have key : ∀ k l, sizeOf l ≤ k → P l := by
    intro k
    induction k with
    | zero =>
      intro l hl
      have := pnode_list_sizeOf_pos l
      omega
    | succ k ih =>
      intro l hl
      cases l with
      | nil => exact h0
      | cons n rest =>
        have hrest : sizeOf rest ≤ k := by
          simp [List.cons.sizeOf_spec] at hl
          omega
        have hchild : sizeOf (childrenOf n) ≤ k := by
          cases n with
          | text s m =>
            have : sizeOf (childrenOf (PNode.text s m)) = 1 := by simp [childrenOf]
            have hp := pnode_list_sizeOf_pos rest
            simp [List.cons.sizeOf_spec, PNode.text.sizeOf_spec] at hl
            omega
          | node ty a b lf m cs =>
            have hc : childrenOf (PNode.node ty a b lf m cs) = cs := rfl
            rw [hc]
            simp [List.cons.sizeOf_spec, PNode.node.sizeOf_spec] at hl
            have hp := pnode_list_sizeOf_pos rest
            omega
        exact h1 n rest (ih _ hchild) (ih _ hrest)
  intro l
  exact key (sizeOf l) l le_rfl

/-
Lemmas about the task traversal.
-/

theorem tasksList_eq_map :
    ∀ l, tasksList l = (checklistItemsList l).map taskOfItem := by
  refine pnode_list_ind _ (by simp [tasksList, checklistItemsList]) ?_
  intro n rest hchild hrest
  rw [tasksList, checklistItemsList, List.map_append, hrest]
  congr 1
  cases n with
  | text s m => simp [tasksNode, checklistItemsNode]
  | node ty a b lf m cs =>
    have hc : childrenOf (PNode.node ty a b lf m cs) = cs := rfl
    rw [hc] at hchild
    rw [tasksNode, checklistItemsNode]
    by_cases hb : b
    · rw [if_pos hb, if_pos hb, List.map_append, hchild]
      congr 1
      by_cases hty : ty = "checkbox_list"
      · rw [if_pos hty, if_pos hty]
      · rw [if_neg hty, if_neg hty]
        rfl
    · rw [if_neg hb, if_neg hb]
      rfl

/-- C10: every task emitted by getTasks takes its completed field verbatim
from the checked attribute of the originating checklist item, with no
coercion or default; in particular an item without a checked key yields the
absent value none rather than false. -/
theorem C10_task_completed_verbatim (doc : PNode) (t : TaskEntry) (ht : t ∈ getTasks doc) :
    ∃ item, item ∈ checklistItemsList (childrenOf doc) ∧
      t.text = itemText item ∧ t.completed = objGet (attrsOf item) "checked" ∧
      (objHas (attrsOf item) "checked" = false → t.completed = none) := by
  rw [getTasks, tasksList_eq_map] at ht
  obtain ⟨item, hmem, hti⟩ := List.mem_map.mp ht
  refine ⟨item, hmem, ?_, ?_, ?_⟩
  · rw [← hti]; rfl
  · rw [← hti]; rfl
  · intro hno
    rw [← hti]
    exact objGet_eq_none_of_not_has _ _ hno

/-- Witness for C10: in the checklist document the second item carries no
checked attribute and its task has the absent completed value. -/
theorem C10_task_completed_verbatim_witness :
    ∃ item, item ∈ checklistItemsList (childrenOf checkboxDoc) ∧
      (TaskEntry.mk "b" none).text = itemText item ∧
      (TaskEntry.mk "b" none).completed = objGet (attrsOf item) "checked" ∧
      (objHas (attrsOf item) "checked" = false → (TaskEntry.mk "b" none).completed = none) :=
  C10_task_completed_verbatim checkboxDoc ⟨"b", none⟩ (by decide)

/-- C5: the task summary is consistent with the task list: total is the
length of getTasks and completed counts the tasks whose completed field is
true, for documents whose checked attributes are boolean or absent as the
data model states. -/
theorem C5_tasks_summary_consistent (doc : PNode)
    (h : ∀ t ∈ getTasks doc, t.completed = some (AttrVal.boolean true) ∨
      t.completed = some (AttrVal.boolean false) ∨ t.completed = none) :
    (getTasksSummary doc).total = (getTasks doc).length ∧
    (getTasksSummary doc).completed =
      ((getTasks doc).filter
        (fun t => decide (t.completed = some (AttrVal.boolean true)))).length := by
  refine ⟨rfl, ?_⟩
  show ((getTasks doc).filter (fun t => truthy t.completed)).length = _
  congr 1
  apply List.filter_congr
  intro t ht
  rcases h t ht with h1 | h1 | h1 <;> rw [h1] <;> rfl

/-- Witness for C5 at the checklist document with one checked and one
unchecked item. -/
theorem C5_tasks_summary_consistent_witness :
    (getTasksSummary checkboxDoc).total = (getTasks checkboxDoc).length ∧
    (getTasksSummary checkboxDoc).completed =
      ((getTasks checkboxDoc).filter
        (fun t => decide (t.completed = some (AttrVal.boolean true)))).length :=
  C5_tasks_summary_consistent checkboxDoc (by decide)

/-- C9: every entry emitted by getComments is the attribute map of a
comment mark on a descendant node, with the text field assigned the
carrying node text content after the spread, so a text key inside the mark
attributes cannot override it, while id and userId are read verbatim and
are absent when the mark lacks them. -/
theorem C9_comment_text_verbatim (doc : PNode) (e : List (String × AttrVal))
    (he : e ∈ getComments doc) :
    ∃ n m, n ∈ descendantsOf doc ∧ m ∈ marksOf n ∧ m.typeName = "comment" ∧
      e = objSet m.attrs "text" (AttrVal.str (textContent n)) ∧
      objGet e "text" = some (AttrVal.str (textContent n)) ∧
      objGet e "id" = objGet m.attrs "id" ∧
      objGet e "userId" = objGet m.attrs "userId" := by
  rw [getComments] at he
  obtain ⟨n, hn, he⟩ := List.mem_flatMap.mp he
  rw [commentEntries] at he
  obtain ⟨m, hm, hme⟩ := List.mem_filterMap.mp he
  by_cases hc : m.typeName = "comment"
  · rw [if_pos hc] at hme
    obtain rfl := Option.some.inj hme
    refine ⟨n, m, hn, hm, hc, rfl, ?_, ?_, ?_⟩
    · exact objGet_objSet_self _ _ _
    · exact objGet_objSet_other _ _ _ _ (by decide)
    · exact objGet_objSet_other _ _ _ _ (by decide)
  · rw [if_neg hc] at hme
    cases hme

/-- Witness for C9: the comment mark of the sneaky document has a text
attribute of its own and no id, and the emitted entry still carries the
node text and an absent id. -/
theorem C9_comment_text_verbatim_witness :
    ∃ n m, n ∈ descendantsOf sneakyCommentDoc ∧ m ∈ marksOf n ∧ m.typeName = "comment" ∧
      [("text", AttrVal.str "real")] = objSet m.attrs "text" (AttrVal.str (textContent n)) ∧
      objGet [("text", AttrVal.str "real")] "text" = some (AttrVal.str (textContent n)) ∧
      objGet [("text", AttrVal.str "real")] "id" = objGet m.attrs "id" ∧
      objGet [("text", AttrVal.str "real")] "userId" = objGet m.attrs "userId" :=
  C9_comment_text_verbatim sneakyCommentDoc [("text", AttrVal.str "real")] (by decide)

/-
Lemmas relating trimming to whitespace-only character content.
-/

theorem string_mk_eq_empty_iff (l : List Char) : (⟨l⟩ : String) = "" ↔ l = [] := by
  constructor
  · intro h
    exact congrArg String.data h
  · intro h
    rw [h]

theorem jsTrim_eq_empty_iff (s : String) :
    jsTrim s = "" ↔ ∀ c ∈ s.data, isWS c = true := by
  rw [jsTrim, string_mk_eq_empty_iff, List.reverse_eq_nil_iff, List.dropWhile_eq_nil_iff]
  constructor
  · intro h c hc
    have hc2 : c ∈ s.data.takeWhile isWS ++ s.data.dropWhile isWS := by
      rw [List.takeWhile_append_dropWhile]
      exact hc
    rcases List.mem_append.mp hc2 with hm | hm
    · exact List.mem_takeWhile_imp hm
    · exact h c (List.mem_reverse.mpr hm)
  · intro h c hc
    exact h c ((List.dropWhile_sublist _).subset (List.mem_reverse.mp hc))

theorem sepAfter_chars (c : PNode) (rest : List PNode) :
    ∀ x ∈ (sepAfter c rest).data, x = '\n' := by
  intro x hx
  cases rest with
  | nil => simp [sepAfter] at hx
  | cons c2 rest2 =>
    rw [show sepAfter c (c2 :: rest2) =
      (if isBlockNode c && isBlockNode c2 then "\n" else "") from rfl] at hx
    by_cases hb : isBlockNode c && isBlockNode c2
    · rw [if_pos hb] at hx
      simpa using hx
    · rw [if_neg hb] at hx
      simp at hx

theorem descendantsOf_eq (n : PNode) : descendantsOf n = descendantsList (childrenOf n) := by
  cases n <;> rfl

theorem plainText_chars (sch : Schema) :
    ∀ l, (∀ n ∈ descendantsList l, sch (typeNameOf n) = none) →
      (∀ c ∈ (plainTextList sch l).data, c ∈ (textContentList l).data ∨ c = '\n') ∧
      (∀ c ∈ (textContentList l).data, c ∈ (plainTextList sch l).data) := by
  refine pnode_list_ind _ ?_ ?_
  · intro _
    constructor <;> intro c hc <;> simp [plainTextList, textContentList] at hc
  · intro n rest hchild hrest hser
    have hn : sch (typeNameOf n) = none := by
      apply hser n
      rw [descendantsList]
      exact List.mem_cons_self _ _
    have hchild2 := hchild (fun m hm => hser m (by
      rw [descendantsList]
      exact List.mem_cons_of_mem _ (List.mem_append_left _ ((descendantsOf_eq n) ▸ hm))))
    have hrest2 := hrest (fun m hm => hser m (by
      rw [descendantsList]
      exact List.mem_cons_of_mem _ (List.mem_append_right _ hm)))
    have hnode : (∀ c ∈ (plainTextNode sch n).data, c ∈ (textContent n).data ∨ c = '\n') ∧
        (∀ c ∈ (textContent n).data, c ∈ (plainTextNode sch n).data) := by
      cases n with
      | text s m =>
        have hn' : sch "text" = none := hn
        rw [plainTextNode, hn', textContent]
        exact ⟨fun c hc => Or.inl hc, fun c hc => hc⟩
      | node ty a b lf m cs =>
        have hn' : sch ty = none := hn
        rw [plainTextNode, hn', textContent]
        exact hchild2
    constructor
    · intro c hc
      rw [plainTextList, String.data_append, String.data_append] at hc
      rw [textContentList, String.data_append]
      rcases List.mem_append.mp hc with hc1 | hc2
      · rcases List.mem_append.mp hc1 with hm | hm
        · rcases hnode.1 c hm with hm' | hm'
          · exact Or.inl (List.mem_append_left _ hm')
          · exact Or.inr hm'
        · exact Or.inr (sepAfter_chars n rest c hm)
      · rcases hrest2.1 c hc2 with hm' | hm'
        · exact Or.inl (List.mem_append_right _ hm')
        · exact Or.inr hm'
    · intro c hc
      rw [textContentList, String.data_append] at hc
      rw [plainTextList, String.data_append, String.data_append]
      rcases List.mem_append.mp hc with hm | hm
      · exact List.mem_append_left _ (List.mem_append_left _ (hnode.2 c hm))
      · exact List.mem_append_right _ (hrest2.2 c hm)

/-- C2 (amended): for every document node that is not a bare text root and
none of whose descendants has a type with a custom plain-text serializer in
the schema, isEmpty agrees with testing whether the serializer-aware plain
text trims to the empty string; and the canonical empty document is empty.
The two formulations differ exactly on custom serializers, since isEmpty
uses the built-in textContent concatenation. -/
theorem C2_isEmpty_iff_toPlainText (sch : Schema) (doc : PNode)
    (hroot : isTextNode doc = false)
    (hser : ∀ n ∈ descendantsOf doc, sch (typeNameOf n) = none) :
    isEmpty (some doc) = decide (jsTrim (toPlainText sch doc) = "") ∧
    isEmpty (some getEmptyDocument) = true := by
  refine ⟨?_, by decide⟩
  have hiff : (jsTrim (textContent doc) = "") ↔ (jsTrim (toPlainText sch doc) = "") := by
    rw [jsTrim_eq_empty_iff, jsTrim_eq_empty_iff]
    cases doc with
    | text s m => simp [isTextNode] at hroot
    | node ty a b lf m cs =>
      have h := plainText_chars sch cs (fun n hn => hser n (by
        rw [descendantsOf]
        exact hn))
      have htc : textContent (PNode.node ty a b lf m cs) = textContentList cs := rfl
      have htp : toPlainText sch (PNode.node ty a b lf m cs) = plainTextList sch cs := rfl
      rw [htc, htp]
      constructor
      · intro hall c hc
        rcases h.1 c hc with hm | hm
        · exact hall c hm
        · rw [hm]
          rfl
      · intro hall c hc
        exact hall c (h.2 c hc)
  show decide (jsTrim (textContent doc) = "") = decide (jsTrim (toPlainText sch doc) = "")
  exact decide_eq_decide.mpr hiff

/-- Witness for C2 at the canonical empty document with a serializer-free
schema. -/
theorem C2_isEmpty_iff_toPlainText_witness :
    isEmpty (some getEmptyDocument) =
      decide (jsTrim (toPlainText emptySchema getEmptyDocument) = "") ∧
    isEmpty (some getEmptyDocument) = true :=
  C2_isEmpty_iff_toPlainText emptySchema getEmptyDocument (by decide) (fun n _ => rfl)

/-
Size and indexing helper lemmas for the trim development.
-/

theorem sizeList_append : ∀ l1 l2 : List PNode, sizeList (l1 ++ l2) = sizeList l1 + sizeList l2 := by
  intro l1 l2
  induction l1 with
  | nil => simp [sizeList]
  | cons c rest ih =>
    rw [List.cons_append, sizeList, sizeList, ih]
    omega

theorem pnode_get_lt : ∀ (cs : List PNode) (i : Nat) (x : PNode), cs[i]? = some x → i < cs.length := by
  intro cs
  induction cs with
  | nil => intro i x h; simp at h
  | cons c rest ih =>
    intro i x h
    match i with
    | 0 => simp
    | i + 1 =>
      rw [List.getElem?_cons_succ] at h
      have := ih i x h
      simpa using Nat.succ_lt_succ this

theorem pnode_mem_of_get : ∀ (cs : List PNode) (i : Nat) (x : PNode), cs[i]? = some x → x ∈ cs := by
  intro cs
  induction cs with
  | nil => intro i x h; simp at h
  | cons c rest ih =>
    intro i x h
    match i with
    | 0 =>
      rw [List.getElem?_cons_zero] at h
      exact (Option.some.inj h) ▸ List.mem_cons_self _ _
    | i + 1 =>
      rw [List.getElem?_cons_succ] at h
      exact List.mem_cons_of_mem _ (ih i x h)

theorem pnode_get_exists : ∀ (cs : List PNode) (i : Nat), i < cs.length → ∃ x, cs[i]? = some x := by
  intro cs
  induction cs with
  | nil => intro i h; simp at h
  | cons c rest ih =>
    intro i h
    match i with
    | 0 => exact ⟨c, List.getElem?_cons_zero⟩
    | i + 1 =>
      rw [List.getElem?_cons_succ]
      exact ih i (by simpa using Nat.lt_of_succ_lt_succ h)

theorem sizeList_le_of_get : ∀ (cs : List PNode) (i j : Nat) (x : PNode),
    cs[i]? = some x → i < j → nodeSize x ≤ sizeList (cs.take j) := by
  intro cs
  induction cs with
  | nil => intro i j x h _; simp at h
  | cons c rest ih =>
    intro i j x h hij
    match j with
    | 0 => omega
    | j + 1 =>
      rw [List.take_succ_cons, sizeList]
      match i with
      | 0 =>
        rw [List.getElem?_cons_zero] at h
        rw [← Option.some.inj h]
        omega
      | i + 1 =>
        rw [List.getElem?_cons_succ] at h
        have := ih i j x h (by omega)
        omega

theorem sizeList_take_mono (cs : List PNode) (i j : Nat) (hij : i ≤ j) :
    sizeList (cs.take i) ≤ sizeList (cs.take j) := by
  have h1 : cs.take i = (cs.take j).take i := by
    rw [List.take_take, Nat.min_eq_left hij]
  have h2 : sizeList (cs.take j) =
      sizeList ((cs.take j).take i) + sizeList ((cs.take j).drop i) := by
    rw [← sizeList_append, List.take_append_drop]
  rw [h1]
  omega

theorem sizeList_take_succ_get (cs : List PNode) (j : Nat) (x : PNode) (h : cs[j]? = some x) :
    sizeList (cs.take (j + 1)) = sizeList (cs.take j) + nodeSize x := by
  rw [List.take_succ, h]
  rw [sizeList_append]
  simp [sizeList]

/-
Lemmas about the emptiness scans.
-/

theorem nodeSize_pos_of_not_empty (sch : Schema) (c : PNode)
    (h : isEmptyChild sch c = false) : 1 ≤ nodeSize c := by
  cases c with
  | text s m =>
    rw [nodeSize]
    by_contra hlen
    have hz : s.length = 0 := by omega
    have hs : s = "" := by
      apply String.ext
      have := List.length_eq_zero.mp hz
      simp [this]
    rw [hs] at h
    have : isEmptyChild sch (PNode.text "" m) = true := by rfl
    rw [this] at h
    cases h
  | node ty a b lf m cs =>
    rw [nodeSize]
    split <;> omega

theorem nodeSize_pos_of_not_text (c : PNode) (h : isTextNode c = false) : 1 ≤ nodeSize c := by
  cases c with
  | text s m => simp [isTextNode] at h
  | node ty a b lf m cs =>
    rw [nodeSize]
    split <;> omega

theorem scanFront_all (sch : Schema) : ∀ cs : List PNode,
    (∀ c ∈ cs, isEmptyChild sch c = true) → scanFront sch cs = sizeList cs := by
  intro cs
  induction cs with
  | nil => intro _; rfl
  | cons c rest ih =>
    intro h
    rw [scanFront, if_pos (h c (List.mem_cons_self _ _)), sizeList,
      ih (fun x hx => h x (List.mem_cons_of_mem _ hx))]

theorem scanFront_eq (sch : Schema) : ∀ cs : List PNode,
    scanFront sch cs = sizeList (cs.takeWhile (isEmptyChild sch)) := by
  intro cs
  induction cs with
  | nil => rfl
  | cons c rest ih =>
    by_cases hc : isEmptyChild sch c
    · rw [scanFront, if_pos hc, List.takeWhile_cons_of_pos hc, sizeList, ih]
    · rw [scanFront, if_neg hc, List.takeWhile_cons_of_neg hc]
      rfl

theorem takeWhile_eq_take (p : PNode → Bool) :
    ∀ cs : List PNode, cs.takeWhile p = cs.take (cs.takeWhile p).length := by
  intro cs
  induction cs with
  | nil => rfl
  | cons c rest ih =>
    by_cases hp : p c
    · rw [List.takeWhile_cons_of_pos hp, List.length_cons, List.take_succ_cons]
      rw [← ih]
    · rw [List.takeWhile_cons_of_neg hp]
      rfl

theorem takeWhile_get_fail (p : PNode → Bool) :
    ∀ (cs : List PNode) (x : PNode), cs[(cs.takeWhile p).length]? = some x → p x = false := by
  intro cs
  induction cs with
  | nil => intro x h; simp at h
  | cons c rest ih =>
    intro x h
    by_cases hp : p c
    · rw [List.takeWhile_cons_of_pos hp, List.length_cons, List.getElem?_cons_succ] at h
      exact ih x h
    · rw [List.takeWhile_cons_of_neg hp] at h
      rw [List.length_nil, List.getElem?_cons_zero] at h
      rw [← Option.some.inj h]
      exact Bool.not_eq_true _ ▸ (by simpa using hp)

theorem scanBack_all (sch : Schema) : ∀ cs : List PNode,
    (∀ c ∈ cs, isEmptyChild sch c = true) → scanBack sch cs = (sizeList cs, true) := by
  intro cs
  induction cs with
  | nil => intro _; rfl
  | cons c rest ih =>
    intro h
    rw [scanBack]
    have hr := ih (fun x hx => h x (List.mem_cons_of_mem _ hx))
    rw [hr]
    simp [h c (List.mem_cons_self _ _), sizeList]

theorem scanBack_true_all (sch : Schema) : ∀ cs : List PNode,
    (scanBack sch cs).2 = true → ∀ c ∈ cs, isEmptyChild sch c = true := by
  intro cs
  induction cs with
  | nil => intro _ c hc; cases hc
  | cons c rest ih =>
    intro h x hx
    rw [scanBack] at h
    by_cases hcond : (scanBack sch rest).2 && isEmptyChild sch c
    · obtain ⟨h1, h2⟩ := Bool.and_eq_true_iff.mp hcond
      rcases List.mem_cons.mp hx with rfl | hx
      · exact h2
      · exact ih h1 x hx
    · rw [if_neg hcond] at h
      cases h

theorem scanBack_false_spec (sch : Schema) : ∀ cs : List PNode,
    (scanBack sch cs).2 = false →
    ∃ j x, cs[j]? = some x ∧ isEmptyChild sch x = false ∧
      (∀ c ∈ cs.drop (j + 1), isEmptyChild sch c = true) ∧
      (scanBack sch cs).1 = sizeList (cs.drop (j + 1)) := by
  intro cs
  induction cs with
  | nil => intro h; cases h
  | cons c rest ih =>
    intro h
    rw [scanBack] at h ⊢
    by_cases hcond : (scanBack sch rest).2 && isEmptyChild sch c
    · rw [if_pos hcond] at h
      cases h
    · rw [if_neg hcond] at h ⊢
      by_cases hr2 : (scanBack sch rest).2
      · have hce : isEmptyChild sch c = false := by
          by_contra hc
          exact hcond (Bool.and_eq_true_iff.mpr ⟨hr2, by simpa using hc⟩)
        refine ⟨0, c, List.getElem?_cons_zero, hce, ?_, ?_⟩
        · intro y hy
          exact scanBack_true_all sch rest hr2 y (by simpa using hy)
        · have hall2 := scanBack_all sch rest (scanBack_true_all sch rest hr2)
          rw [hall2]
          simp
      · obtain ⟨j, x, hjx, hxne, hall, hsum⟩ := ih (by simpa using hr2)
        refine ⟨j + 1, x, ?_, hxne, ?_, ?_⟩
        · rw [List.getElem?_cons_succ]
          exact hjx
        · intro y hy
          exact hall y (by simpa using hy)
        · rw [List.drop_succ_cons]
          exact hsum

theorem scanBack_last_ne (sch : Schema) : ∀ (cs : List PNode) (x : PNode),
    cs[cs.length - 1]? = some x → isEmptyChild sch x = false →
    scanBack sch cs = (0, false) := by
  intro cs
  induction cs with
  | nil => intro x h _; simp at h
  | cons c rest ih =>
    intro x h hx
    cases rest with
    | nil =>
      rw [List.length_singleton, Nat.sub_self, List.getElem?_cons_zero] at h
      rw [scanBack]
      show (if (scanBack sch []).2 && isEmptyChild sch c then _ else ((scanBack sch []).1, false)) = _
      rw [← Option.some.inj h] at hx
      simp [scanBack, hx]
    | cons c2 rest2 =>
      have hlen : (c :: c2 :: rest2).length - 1 = (c2 :: rest2).length - 1 + 1 := by
        simp
      rw [hlen, List.getElem?_cons_succ] at h
      have hr := ih x h hx
      rw [scanBack, hr]
      rfl

theorem scanFront_head_ne (sch : Schema) (c : PNode) (rest : List PNode)
    (h : isEmptyChild sch c = false) : scanFront sch (c :: rest) = 0 := by
  rw [scanFront, if_neg (by simp [h])]

/-
Index lemmas for take and drop specialised to node lists.
-/

theorem pnode_getElem_take : ∀ (cs : List PNode) (n i : Nat), i < n →
    (cs.take n)[i]? = cs[i]? := by
  intro cs
  induction cs with
  | nil => intro n i _; simp
  | cons c rest ih =>
    intro n i h
    match n, h with
    | n + 1, _ =>
      rw [List.take_succ_cons]
      match i with
      | 0 => simp
      | i + 1 =>
        rw [List.getElem?_cons_succ, List.getElem?_cons_succ]
        exact ih n i (by omega)

theorem pnode_getElem_drop : ∀ (cs : List PNode) (n i : Nat),
    (cs.drop n)[i]? = cs[n + i]? := by
  intro cs
  induction cs with
  | nil => intro n i; simp
  | cons c rest ih =>
    intro n i
    match n with
    | 0 => simp
    | n + 1 =>
      rw [List.drop_succ_cons, ih]
      rw [show n + 1 + i = (n + i) + 1 from by omega, List.getElem?_cons_succ]

theorem scanFront_zero_of_first (sch : Schema) : ∀ cs : List PNode,
    (∀ y, cs[0]? = some y → isEmptyChild sch y = false) → scanFront sch cs = 0 := by
  intro cs h
  cases cs with
  | nil => rfl
  | cons c rest =>
    have hc := h c List.getElem?_cons_zero
    rw [scanFront, if_neg (by simp [hc])]

/-
The cut walk at child boundaries: the keep phase and the full lemma.
-/

theorem cutGo_keep (f t : Nat) : ∀ (cs : List PNode) (p j : Nat),
    f < p → j ≤ cs.length → t = p + sizeList (cs.take j) →
    (∀ x, 1 ≤ j → cs[j - 1]? = some x → 1 ≤ nodeSize x) →
    cutGo f t cs p = cs.take j := by
  intro cs
  induction cs with
  | nil =>
    intro p j _ hj _ _
    have hj0 : j = 0 := by simpa using hj
    subst hj0
    rfl
  | cons c rest ih =>
    intro p j hfp hj ht hx
    match j with
    | 0 =>
      have ht' : t = p := by simpa [sizeList] using ht
      rw [cutGo, if_pos (by omega)]
      rfl
    | j + 1 =>
      have hjr : j ≤ rest.length := by simpa using hj
      rw [List.take_succ_cons] at ht ⊢
      rw [sizeList] at ht
      have hpt : p < t := by
        rcases Nat.eq_zero_or_pos j with hj0 | hjpos
        · subst hj0
          have hc1 : 1 ≤ nodeSize c :=
            hx c (by omega) (by simp)
          simp [sizeList] at ht
          omega
        · obtain ⟨x, hgx⟩ := pnode_get_exists rest (j - 1) (by omega)
          have h1 : 1 ≤ nodeSize x := by
            apply hx x (by omega)
            show (c :: rest)[j + 1 - 1]? = some x
            simp only [Nat.add_sub_cancel]
            match j, hjpos with
            | j2 + 1, _ =>
              rw [List.getElem?_cons_succ]
              simpa using hgx
          have h2 := sizeList_le_of_get rest (j - 1) j x hgx (by omega)
          omega
      rw [cutGo, if_neg (by omega), if_pos (by omega), if_neg (by omega)]
      simp only [List.singleton_append]
      congr 1
      apply ih (p + nodeSize c) j (by omega) hjr (by omega)
      intro x h1 hgx
      apply hx x (by omega)
      show (c :: rest)[j + 1 - 1]? = some x
      simp only [Nat.add_sub_cancel]
      match j, h1 with
      | j2 + 1, _ =>
        rw [List.getElem?_cons_succ]
        simpa using hgx

theorem cutGo_main (f t : Nat) : ∀ (cs : List PNode) (p i j : Nat),
    i < j → j ≤ cs.length →
    f = p + sizeList (cs.take i) → t = p + sizeList (cs.take j) →
    (∀ x, cs[i]? = some x → 1 ≤ nodeSize x) →
    (∀ x, cs[j - 1]? = some x → 1 ≤ nodeSize x) →
    cutGo f t cs p = (cs.take j).drop i := by
  intro cs
  induction cs with
  | nil =>
    intro p i j hij hj _ _ _ _
    simp at hj
    omega
  | cons c rest ih =>
    intro p i j hij hj hf ht hi hj1
    match j, hij with
    | j + 1, _ =>
      have hjr : j ≤ rest.length := by simpa using hj
      rw [List.take_succ_cons] at ht ⊢
      rw [sizeList] at ht
      match i with
      | 0 =>
        have hfp : f = p := by simpa [sizeList] using hf
        have hc1 : 1 ≤ nodeSize c := hi c (by simp)
        rw [cutGo, if_neg (by omega), if_pos (by omega), if_neg (by omega)]
        simp only [List.singleton_append, List.drop_zero]
        congr 1
        apply cutGo_keep f t rest (p + nodeSize c) j (by omega) hjr (by omega)
        intro x h1 hgx
        apply hj1 x
        show (c :: rest)[j + 1 - 1]? = some x
        simp only [Nat.add_sub_cancel]
        match j, h1 with
        | j2 + 1, _ =>
          rw [List.getElem?_cons_succ]
          simpa using hgx
      | i + 1 =>
        rw [List.take_succ_cons, sizeList] at hf
        have hjpos : 1 ≤ j := by omega
        obtain ⟨x, hgx⟩ := pnode_get_exists rest (j - 1) (by omega)
        have hx1 : 1 ≤ nodeSize x := by
          apply hj1 x
          show (c :: rest)[j + 1 - 1]? = some x
          simp only [Nat.add_sub_cancel]
          match j, hjpos with
          | j2 + 1, _ =>
            rw [List.getElem?_cons_succ]
            simpa using hgx
        have hxle := sizeList_le_of_get rest (j - 1) j x hgx (by omega)
        rw [cutGo, if_neg (by omega), if_neg (by omega)]
        simp only [List.nil_append]
        rw [List.drop_succ_cons]
        apply ih (p + nodeSize c) i j (by omega) hjr (by omega) (by omega)
        · intro y hgy
          apply hi y
          show (c :: rest)[i + 1]? = some y
          rw [List.getElem?_cons_succ]
          exact hgy
        · intro y hgy
          apply hj1 y
          show (c :: rest)[j + 1 - 1]? = some y
          simp only [Nat.add_sub_cancel]
          match j, hjpos with
          | j2 + 1, _ =>
            rw [List.getElem?_cons_succ]
            simpa using hgy

/-- C8: on a non-leaf document with at least two top-level children all of
whose plain text trims to empty, both scans run to exhaustion: the start
offset is the total size of the children, the end offset is zero, the
result is the cut of the document between the total size and zero, a
degenerate range with start above end that leaves no children. -/
theorem C8_trim_all_empty (sch : Schema) (doc : PNode)
    (hleaf : isLeafNode doc = false) (h2 : 2 ≤ childCount doc)
    (hblocks : ∀ c ∈ childrenOf doc, isTextNode c = false)
    (hempty : ∀ c ∈ childrenOf doc, isEmptyChild sch c = true) :
    scanFront sch (childrenOf doc) = sizeList (childrenOf doc) ∧
    (nodeSize doc - 2) - (scanBack sch (childrenOf doc)).1 = 0 ∧
    trim sch doc = cutNode doc (sizeList (childrenOf doc)) 0 ∧
    0 < sizeList (childrenOf doc) ∧
    childrenOf (trim sch doc) = [] := by
  cases doc with
  | text s m => simp [isLeafNode] at hleaf
  | node ty a b lf m cs =>
    have hlf : lf = false := hleaf
    subst hlf
    simp only [childCount, childrenOf] at h2 hblocks hempty ⊢
    have hS : 0 < sizeList cs := by
      match cs, h2 with
      | c :: rest, _ =>
        have := nodeSize_pos_of_not_text c (hblocks c (List.mem_cons_self _ _))
        rw [sizeList]
        omega
    have hsf := scanFront_all sch cs hempty
    have hsb : (scanBack sch cs).1 = sizeList cs := by
      rw [scanBack_all sch cs hempty]
    have hns : nodeSize (PNode.node ty a b false m cs) - 2 = sizeList cs := by
      rw [nodeSize]
      simp
    have htr : trim sch (PNode.node ty a b false m cs) =
        cutNode (PNode.node ty a b false m cs) (sizeList cs) 0 := by
      rw [trim, if_neg (by simp only [childCount, childrenOf]; omega)]
      simp only [childrenOf]
      rw [hsf, hns, hsb, Nat.sub_self]
    refine ⟨hsf, by rw [hns, hsb, Nat.sub_self], htr, hS, ?_⟩
    rw [htr]
    rw [show cutNode (PNode.node ty a b false m cs) (sizeList cs) 0 =
      (if sizeList cs = 0 ∧ (0 : Nat) = sizeList cs then PNode.node ty a b false m cs
       else PNode.node ty a b false m (cutFragment cs (sizeList cs) 0)) from rfl]
    rw [if_neg (by omega), cutFragment, if_neg (by omega), if_neg (by omega)]

/-- Witness for C8 at the document with two empty paragraphs. -/
theorem C8_trim_all_empty_witness :
    scanFront emptySchema (childrenOf allEmptyDoc) = sizeList (childrenOf allEmptyDoc) ∧
    (nodeSize allEmptyDoc - 2) - (scanBack emptySchema (childrenOf allEmptyDoc)).1 = 0 ∧
    trim emptySchema allEmptyDoc = cutNode allEmptyDoc (sizeList (childrenOf allEmptyDoc)) 0 ∧
    0 < sizeList (childrenOf allEmptyDoc) ∧
    childrenOf (trim emptySchema allEmptyDoc) = [] :=
  C8_trim_all_empty emptySchema allEmptyDoc (by decide) (by decide) (by decide) (by decide)

/-- C3: trim is idempotent on documents, that is on non-leaf nodes, and
trivially on nodes with at most one child. -/
theorem C3_trim_idempotent (sch : Schema) (doc : PNode)
    (hdoc : isLeafNode doc = false ∨ childCount doc ≤ 1) :
    trim sch (trim sch doc) = trim sch doc := by
  by_cases hc : childCount doc ≤ 1
  · have h1 : trim sch doc = doc := by rw [trim, if_pos hc]
    rw [h1]
    exact h1
  · have hleaf : isLeafNode doc = false := hdoc.resolve_right hc
    cases doc with
    | text s m =>
      exfalso
      exact hc (by simp [childCount, childrenOf])
    | node ty a b lf m cs =>
      have hlf : lf = false := hleaf
      subst hlf
      have hlen : 2 ≤ cs.length := by
        simp only [childCount, childrenOf] at hc
        omega
      have hns : nodeSize (PNode.node ty a b false m cs) - 2 = sizeList cs := by
        rw [nodeSize]
        simp
      by_cases hall : (scanBack sch cs).2 = true
      · have hAll := scanBack_true_all sch cs hall
        have hsb : (scanBack sch cs).1 = sizeList cs := by
          rw [scanBack_all sch cs hAll]
        have hsf : scanFront sch cs = sizeList cs := scanFront_all sch cs hAll
        by_cases hS : sizeList cs = 0
        · have h1 : trim sch (PNode.node ty a b false m cs) =
              PNode.node ty a b false m cs := by
            rw [trim, if_neg (by simp only [childCount, childrenOf]; omega)]
            simp only [childrenOf]
            rw [hsf, hns, hsb, Nat.sub_self, hS]
            rw [show cutNode (PNode.node ty a b false m cs) 0 0 =
              (if (0 : Nat) = 0 ∧ (0 : Nat) = sizeList cs then PNode.node ty a b false m cs
               else PNode.node ty a b false m (cutFragment cs 0 0)) from rfl]
            rw [if_pos ⟨rfl, hS.symm⟩]
          rw [h1]
          exact h1
        · have h1 : trim sch (PNode.node ty a b false m cs) =
              PNode.node ty a b false m [] := by
            rw [trim, if_neg (by simp only [childCount, childrenOf]; omega)]
            simp only [childrenOf]
            rw [hsf, hns, hsb, Nat.sub_self]
            rw [show cutNode (PNode.node ty a b false m cs) (sizeList cs) 0 =
              (if sizeList cs = 0 ∧ (0 : Nat) = sizeList cs then PNode.node ty a b false m cs
               else PNode.node ty a b false m (cutFragment cs (sizeList cs) 0)) from rfl]
            rw [if_neg (by omega), cutFragment, if_neg (by omega), if_neg (by omega)]
          rw [h1]
          rw [trim, if_pos (by simp [childCount, childrenOf])]
      · have hallf : (scanBack sch cs).2 = false := by simpa using hall
        obtain ⟨j, x, hjx, hxne, hjall, hsb1⟩ := scanBack_false_spec sch cs hallf
        have hjlen : j < cs.length := pnode_get_lt cs j x hjx
        set aw := (cs.takeWhile (isEmptyChild sch)).length with haw
        have hsf : scanFront sch cs = sizeList (cs.take aw) := by
          rw [scanFront_eq, haw]
          congr 1
          exact takeWhile_eq_take (isEmptyChild sch) cs
        have haj : aw ≤ j := by
          by_contra hlt
          push_neg at hlt
          have hgt : (cs.take aw)[j]? = some x := by
            rw [pnode_getElem_take cs aw j hlt]
            exact hjx
          have hmem : x ∈ cs.take aw := pnode_mem_of_get _ j x hgt
          rw [haw, ← takeWhile_eq_take (isEmptyChild sch) cs] at hmem
          have := List.mem_takeWhile_imp hmem
          rw [this] at hxne
          cases hxne
        have hxa : ∀ y, cs[aw]? = some y → isEmptyChild sch y = false := by
          intro y hy
          apply takeWhile_get_fail (isEmptyChild sch) cs y
          rw [← haw]
          exact hy
        have hsplit : sizeList cs = sizeList (cs.take (j + 1)) + sizeList (cs.drop (j + 1)) := by
          rw [← sizeList_append, List.take_append_drop]
        have ht0 : sizeList cs - (scanBack sch cs).1 = sizeList (cs.take (j + 1)) := by
          rw [hsb1]
          omega
        have htsucc : sizeList (cs.take (j + 1)) = sizeList (cs.take j) + nodeSize x :=
          sizeList_take_succ_get cs j x hjx
        have hx1 : 1 ≤ nodeSize x := nodeSize_pos_of_not_empty sch x hxne
        have hfle : sizeList (cs.take aw) ≤ sizeList (cs.take j) := sizeList_take_mono cs aw j haj
        have hflt : sizeList (cs.take aw) < sizeList (cs.take (j + 1)) := by omega
        by_cases hid : scanFront sch cs = 0 ∧ sizeList cs - (scanBack sch cs).1 = sizeList cs
        · have h1 : trim sch (PNode.node ty a b false m cs) =
              PNode.node ty a b false m cs := by
            rw [trim, if_neg (by simp only [childCount, childrenOf]; omega)]
            simp only [childrenOf]
            rw [hns]
            rw [show cutNode (PNode.node ty a b false m cs) (scanFront sch cs)
                (sizeList cs - (scanBack sch cs).1) =
              (if scanFront sch cs = 0 ∧ sizeList cs - (scanBack sch cs).1 = sizeList cs
               then PNode.node ty a b false m cs
               else PNode.node ty a b false m
                 (cutFragment cs (scanFront sch cs) (sizeList cs - (scanBack sch cs).1))) from rfl]
            rw [if_pos hid]
          rw [h1]
          exact h1
        · have hcut : cutFragment cs (scanFront sch cs) (sizeList cs - (scanBack sch cs).1) =
              (cs.take (j + 1)).drop aw := by
            rw [hsf, ht0, cutFragment]
            rw [if_neg (fun hcontra => hid ⟨by rw [hsf]; exact hcontra.1, by rw [ht0]; exact hcontra.2⟩)]
            rw [if_pos hflt]
            apply cutGo_main _ _ cs 0 aw (j + 1) (by omega) (by omega) (by simp) (by simp)
            · intro z hz
              exact nodeSize_pos_of_not_empty sch z (hxa z hz)
            · intro z hz
              simp only [Nat.add_sub_cancel] at hz
              have hzx : some z = some x := hz.symm.trans hjx
              rw [Option.some.inj hzx]
              exact hx1
          have h1 : trim sch (PNode.node ty a b false m cs) =
              PNode.node ty a b false m ((cs.take (j + 1)).drop aw) := by
            rw [trim, if_neg (by simp only [childCount, childrenOf]; omega)]
            simp only [childrenOf]
            rw [hns]
            rw [show cutNode (PNode.node ty a b false m cs) (scanFront sch cs)
                (sizeList cs - (scanBack sch cs).1) =
              (if scanFront sch cs = 0 ∧ sizeList cs - (scanBack sch cs).1 = sizeList cs
               then PNode.node ty a b false m cs
               else PNode.node ty a b false m
                 (cutFragment cs (scanFront sch cs) (sizeList cs - (scanBack sch cs).1))) from rfl]
            rw [if_neg hid, hcut]
          rw [h1]
          set cs2 := (cs.take (j + 1)).drop aw with hcs2
          have hlen2 : cs2.length = j + 1 - aw := by
            rw [hcs2, List.length_drop, List.length_take, Nat.min_eq_left (by omega)]
          by_cases hone : cs2.length ≤ 1
          · rw [trim, if_pos (by rw [childCount]; simp only [childrenOf]; exact hone)]
          · have hhead : cs2[0]? = cs[aw]? := by
              rw [hcs2, pnode_getElem_drop]
              simp only [Nat.add_zero]
              exact pnode_getElem_take cs (j + 1) aw (by omega)
            have hlast : cs2[cs2.length - 1]? = cs[j]? := by
              rw [hcs2, pnode_getElem_drop, ← hcs2, hlen2]
              rw [show aw + (j + 1 - aw - 1) = j from by omega]
              exact pnode_getElem_take cs (j + 1) j (by omega)
            have hsf2 : scanFront sch cs2 = 0 := by
              apply scanFront_zero_of_first sch cs2
              intro y hy
              apply hxa y
              rw [← hhead]
              exact hy
            have hsb2 : scanBack sch cs2 = (0, false) := by
              apply scanBack_last_ne sch cs2 x _ hxne
              rw [hlast]
              exact hjx
            rw [trim, if_neg (by rw [childCount]; simp only [childrenOf]; exact hone)]
            simp only [childrenOf]
            rw [hsf2, hsb2]
            have hns2 : nodeSize (PNode.node ty a b false m cs2) - 2 = sizeList cs2 := by
              rw [nodeSize]
              simp
            rw [show ((0 : Nat), false).1 = (0 : Nat) from rfl, Nat.sub_zero, hns2]
            rw [show cutNode (PNode.node ty a b false m cs2) 0 (sizeList cs2) =
              (if (0 : Nat) = 0 ∧ sizeList cs2 = sizeList cs2 then PNode.node ty a b false m cs2
               else PNode.node ty a b false m (cutFragment cs2 0 (sizeList cs2))) from rfl]
            rw [if_pos ⟨rfl, rfl⟩]

/-- Witness for C3 at a document with empty boundary paragraphs. -/
theorem C3_trim_idempotent_witness :
    trim emptySchema (trim emptySchema helloDoc) = trim emptySchema helloDoc :=
  C3_trim_idempotent emptySchema helloDoc (Or.inl (by decide))
